import Mathlib

/-!
Shallow embedding of the four concurrency primitives of the
`typescript-locks` repository (`src/simpleLock.ts`, `src/queueLock.ts`,
`src/readWriteLock.ts`), together with proofs of the specification's
claims about them.

The source runs under JavaScript's single-threaded cooperative scheduler:
every `tryAcquire` closure and every release function body executes
atomically (there is no `await` inside them).  We therefore model each
component as a state machine whose steps are exactly those atomic bodies.
Wait queues store `tryAcquire` closures; each closure is determined by the
caller it belongs to, so a queue is modelled as a list of caller
identifiers, and "invoking the closure" is re-running the `tryAcquire`
logic for that caller.

Ghost instrumentation (absent from the source, added to state the
specification's properties): `holders` tracks the callers whose release
capability is outstanding (returned by `acquire`, not yet invoked), and
`granted` logs, in order, the callers whose pending `resolve` was called
(the grant events).  Neither ghost field ever influences the evolution of
the source's own fields.
-/

namespace SimpleLock

/-- State of `SimpleLock` (the spec's PollingLock): the `locked` flag and
the configured retry delay, plus the ghost `holders` list (callers past a
successful `acquire` with no matching `release` yet). -/
structure State where
  locked : Bool
  maxWaitTime : Nat
  holders : List Nat
  deriving Repr, DecidableEq

/-- Constructor `new SimpleLock(maxWaitTime)`. -/
def mk (maxWaitTime : Nat) : State :=
  { locked := false, maxWaitTime := maxWaitTime, holders := [] }

/-- The atomic tail of `acquire(threadId)`: once the polling loop observes
`locked === false`, the caller sets `locked = true` and returns (there is
no suspension point between the test and the assignment).  The ghost
`holders` field records the caller. -/
def acquireGrant (threadId : Nat) (s : State) : State :=
  { s with locked := true, holders := threadId :: s.holders }

/-- Method `release(threadId)`: sets `locked = false` unconditionally; `threadId`
is only used for the log line and does not influence the state. -/
def release (threadId : Nat) (s : State) : State :=
  { s with locked := false }

/-- One scheduler-level step of a system of callers sharing one
`SimpleLock`.  `acquire` completes only when the lock is observed free
(otherwise the caller merely sleeps and retries, which does not change the
state); `release` is performed by a caller holding an outstanding
capability (well-matched usage), which consumes it. -/
inductive Step : State → State → Prop
  | acquire (c : Nat) (s : State) (h : s.locked = false) :
      Step s (acquireGrant c s)
  | release (c : Nat) (s : State) (h : c ∈ s.holders) :
      Step s { release c s with holders := s.holders.erase c }

/-- States reachable from a fresh `SimpleLock` instance. -/
inductive Reachable (w : Nat) : State → Prop
  | init : Reachable w (mk w)
  | step {s t : State} : Reachable w s → Step s t → Reachable w t

/-- The mutual-exclusion invariant: the lock flag counts the outstanding
holders exactly. -/
def Inv (s : State) : Prop :=
  s.holders.length = (if s.locked then 1 else 0)

end SimpleLock

namespace QueueLock

/-- State of `QueueLock` (the spec's FIFOLock): the `locked` flag and the
wait `queue` of pending `tryAcquire` closures (identified by caller), plus
ghost fields: `holders` (outstanding release capabilities) and `granted`
(the order in which callers' promises were resolved). -/
structure State where
  locked : Bool
  queue : List Nat
  holders : List Nat
  granted : List Nat
  deriving Repr, DecidableEq

/-- Constructor `new QueueLock()`. -/
def init : State :=
  { locked := false, queue := [], holders := [], granted := [] }

/-- The `tryAcquire` closure body for caller `c`: if the lock is free,
take it and resolve `c`'s promise with a release capability; otherwise
append the closure to the wait queue. -/
def tryAcquire (c : Nat) (s : State) : State :=
  if s.locked = false then
    { s with locked := true, holders := c :: s.holders,
             granted := s.granted ++ [c] }
  else
    { s with queue := s.queue ++ [c] }

/-- Method `acquire()` for caller `c` runs `tryAcquire` once, synchronously. -/
def acquire (c : Nat) (s : State) : State :=
  tryAcquire c s

/-- The release capability returned to caller `c`: set `locked = false`,
then, if the queue is non-empty, shift its head closure and invoke it.
The ghost `holders` entry for `c` is consumed. -/
def releaseFn (c : Nat) (s : State) : State :=
  let s1 : State := { s with locked := false, holders := s.holders.erase c }
  match s1.queue with
  | [] => s1
  | next :: rest => tryAcquire next { s1 with queue := rest }

/-- Actions an external caller can perform on one `QueueLock`. -/
inductive Act where
  | acq (c : Nat)
  | rel (c : Nat)
  deriving Repr, DecidableEq

/-- Interpretation of one action. -/
def apply (s : State) : Act → State
  | .acq c => acquire c s
  | .rel c => releaseFn c s

/-- Run a list of actions from a state. -/
def run (s : State) : List Act → State
  | [] => s
  | a :: rest => run (apply s a) rest

/-- The callers that invoked `acquire`, in call order. -/
def arrivals : List Act → List Nat
  | [] => []
  | .acq c :: rest => c :: arrivals rest
  | .rel _ :: rest => arrivals rest

/-- Well-matched steps: a release is performed by invoking an
outstanding capability (exactly once). -/
inductive Step : State → State → Prop
  | acquire (c : Nat) (s : State) : Step s (acquire c s)
  | release (c : Nat) (s : State) (h : c ∈ s.holders) : Step s (releaseFn c s)

/-- States reachable from a fresh `QueueLock` by well-matched usage. -/
inductive Reachable : State → Prop
  | init : Reachable init
  | step {s t : State} : Reachable s → Step s t → Reachable t

/-- Mutual-exclusion invariant of `QueueLock`. -/
def Inv (s : State) : Prop :=
  s.holders.length = (if s.locked then 1 else 0)

end QueueLock

namespace SemaphoreLock

/-- State of `SemaphoreLock` (the spec's CountingSemaphore): the available
`permits` counter (a JavaScript number, modelled as an integer) and the
FIFO wait `queue` of pending `tryAcquire` closures, plus the ghost
`holders` (outstanding release capabilities) and `granted` (resolution
order) fields. -/
structure State where
  permits : Int
  queue : List Nat
  holders : List Nat
  granted : List Nat
  deriving Repr, DecidableEq

/-- The state of a freshly constructed `SemaphoreLock` whose validated
permit count is `k`. -/
def init (k : Int) : State :=
  { permits := k, queue := [], holders := [], granted := [] }

/-- Predicate `Number.isInteger` on the (rational-valued) constructor argument. -/
def isIntegerArg (q : ℚ) : Bool :=
  q.den == 1

/-- Constructor `new SemaphoreLock(maxConcurrency)`: the constructor throws
`Error('maxConcurrency must be a positive integer')` when
`!Number.isInteger(permits) || permits < 1`, and otherwise stores the
permit count.  The argument is a JavaScript number, modelled as a
rational so that non-integral arguments such as `2.5` are expressible. -/
def mkChecked (maxConcurrency : ℚ) : Except String State :=
  if !(isIntegerArg maxConcurrency) || maxConcurrency < 1 then
    Except.error "maxConcurrency must be a positive integer"
  else
    Except.ok (init maxConcurrency.num)

/-- The `tryAcquire` closure body for caller `c`: if a permit is
available, take it and resolve `c`'s promise with a release capability;
otherwise append the closure to the wait queue. -/
def tryAcquire (c : Nat) (s : State) : State :=
  if 0 < s.permits then
    { s with permits := s.permits - 1, holders := c :: s.holders,
             granted := s.granted ++ [c] }
  else
    { s with queue := s.queue ++ [c] }

/-- Method `acquire()` for caller `c` runs `tryAcquire` once, synchronously. -/
def acquire (c : Nat) (s : State) : State :=
  tryAcquire c s

/-- The `this.permits++` line of `release()`; the ghost `holders` entry
for the invoking caller `c` is consumed. -/
def releaseIncrement (c : Nat) (s : State) : State :=
  { s with permits := s.permits + 1, holders := s.holders.erase c }

/-- The queue-serving tail of `release()`: if the wait queue is
non-empty, shift its head closure and invoke it. -/
def serveNext (s : State) : State :=
  match s.queue with
  | [] => s
  | next :: rest => tryAcquire next { s with queue := rest }

/-- Method `release()` as called by the capability of caller `c`: increment
`permits`, then serve the next waiting acquire request, if any. -/
def release (c : Nat) (s : State) : State :=
  serveNext (releaseIncrement c s)

/-- Actions an external caller can perform on one `SemaphoreLock`. -/
inductive Act where
  | acq (c : Nat)
  | rel (c : Nat)
  deriving Repr, DecidableEq

/-- Interpretation of one action. -/
def apply (s : State) : Act → State
  | .acq c => acquire c s
  | .rel c => release c s

/-- Run a list of actions from a state. -/
def run (s : State) : List Act → State
  | [] => s
  | a :: rest => run (apply s a) rest

/-- The callers that invoked `acquire`, in call order. -/
def arrivals : List Act → List Nat
  | [] => []
  | .acq c :: rest => c :: arrivals rest
  | .rel _ :: rest => arrivals rest

/-- Well-matched steps: a release is performed by invoking an outstanding
capability (exactly once). -/
inductive Step : State → State → Prop
  | acquire (c : Nat) (s : State) : Step s (acquire c s)
  | release (c : Nat) (s : State) (h : c ∈ s.holders) : Step s (release c s)

/-- States reachable from a fresh `SemaphoreLock` with permit count `k`
by well-matched usage. -/
inductive Reachable (k : Int) : State → Prop
  | init : Reachable k (init k)
  | step {s t : State} : Reachable k s → Step s t → Reachable k t

/-- Semaphore invariant: permits never go negative, available permits and
outstanding capabilities account for exactly the configured total, and a
caller waits only when no permit is available. -/
def Inv (k : Int) (s : State) : Prop :=
  0 ≤ s.permits ∧ s.permits + s.holders.length = k ∧
    (s.queue ≠ [] → s.permits = 0)

end SemaphoreLock

namespace ReadWriteLock

/-- State of `ReadWriteLock` (the spec's ReaderWriterLock): the active
`readers` count (a JavaScript number, modelled as an integer), the
`writer` flag, and the two FIFO wait queues of pending `tryAcquire`
closures, plus the ghost `grantedReads` / `grantedWrites` logs recording
the order in which read / write requests were resolved. -/
structure State where
  readers : Int
  writer : Bool
  readQueue : List Nat
  writeQueue : List Nat
  grantedReads : List Nat
  grantedWrites : List Nat
  deriving Repr, DecidableEq

/-- Constructor `new ReadWriteLock()`. -/
def init : State :=
  { readers := 0, writer := false, readQueue := [], writeQueue := [],
    grantedReads := [], grantedWrites := [] }

/-- The `tryAcquire` closure body of `acquireRead` for caller `c`: grant
(increment `readers` and resolve `c`) when no writer is active and no
writer is waiting; otherwise append the closure to the read queue. -/
def tryAcquireRead (c : Nat) (s : State) : State :=
  if s.writer = false ∧ s.writeQueue.length = 0 then
    { s with readers := s.readers + 1,
             grantedReads := s.grantedReads ++ [c] }
  else
    { s with readQueue := s.readQueue ++ [c] }

/-- Method `acquireRead()` for caller `c` runs its `tryAcquire` once. -/
def acquireRead (c : Nat) (s : State) : State :=
  tryAcquireRead c s

/-- The `tryAcquire` closure body of `acquireWrite` for caller `c`: grant
(set `writer` and resolve `c`) when no writer is active and no readers are
active; otherwise append the closure to the write queue. -/
def tryAcquireWrite (c : Nat) (s : State) : State :=
  if s.writer = false ∧ s.readers = 0 then
    { s with writer := true, grantedWrites := s.grantedWrites ++ [c] }
  else
    { s with writeQueue := s.writeQueue ++ [c] }

/-- Method `acquireWrite()` for caller `c` runs its `tryAcquire` once. -/
def acquireWrite (c : Nat) (s : State) : State :=
  tryAcquireWrite c s

/-- Method `releaseRead()`: decrement `readers`; if no readers remain and a
writer waits, shift the head of the write queue and invoke it. -/
def releaseRead (s : State) : State :=
  let s1 : State := { s with readers := s.readers - 1 }
  if s1.readers = 0 ∧ 0 < s1.writeQueue.length then
    match s1.writeQueue with
    | [] => s1
    | next :: rest => tryAcquireWrite next { s1 with writeQueue := rest }
  else s1

/-- The `while (this.readQueue.length > 0)` loop of `releaseWrite`, with
explicit fuel bounding the number of iterations.  In the only context in
which the loop runs (`writer = false` and an empty write queue), every
iteration removes the head of `readQueue` and grants it without requeuing
(lemma `wakeReaders_drains`), so `readQueue.length` iterations compute
exactly the loop's result. -/
def wakeReaders : Nat → State → State
  | 0, s => s
  | Nat.succ fuel, s =>
      match s.readQueue with
      | [] => s
      | next :: rest =>
          wakeReaders fuel (tryAcquireRead next { s with readQueue := rest })

/-- Method `releaseWrite()`: clear `writer`; if a writer waits, shift the head of
the write queue and invoke it; otherwise wake every waiting reader. -/
def releaseWrite (s : State) : State :=
  let s1 : State := { s with writer := false }
  if 0 < s1.writeQueue.length then
    match s1.writeQueue with
    | [] => s1
    | next :: rest => tryAcquireWrite next { s1 with writeQueue := rest }
  else
    wakeReaders s1.readQueue.length s1

/-- Well-matched steps on one `ReadWriteLock`: `releaseRead` is invoked
through one of the `readers` outstanding read capabilities (so it needs
`0 < readers`), and `releaseWrite` through the outstanding write
capability (so it needs `writer = true`). -/
inductive Step : State → State → Prop
  | acquireRead (c : Nat) (s : State) : Step s (acquireRead c s)
  | acquireWrite (c : Nat) (s : State) : Step s (acquireWrite c s)
  | releaseRead (s : State) (h : 0 < s.readers) : Step s (releaseRead s)
  | releaseWrite (s : State) (h : s.writer = true) : Step s (releaseWrite s)

/-- States reachable from a fresh `ReadWriteLock` by well-matched usage. -/
inductive Reachable : State → Prop
  | init : Reachable init
  | step {s t : State} : Reachable s → Step s t → Reachable t

/-- Reader/writer exclusivity invariant. -/
def Inv (s : State) : Prop :=
  0 ≤ s.readers ∧ (s.writer = true → s.readers = 0)

end ReadWriteLock

namespace SimpleLock

theorem inv_acquireGrant {s : State} (c : Nat) (hl : s.locked = false)
    (h : Inv s) : Inv (acquireGrant c s) := by
  obtain ⟨l, w, hs⟩ := s
  subst hl
  simp [Inv] at h
  simp [Inv, acquireGrant, h]

theorem simple_inv_release {s : State} {c : Nat} (hc : c ∈ s.holders) (h : Inv s) :
    Inv { release c s with holders := s.holders.erase c } := by
  obtain ⟨l, w, hs⟩ := s
  have hne : hs ≠ [] := List.ne_nil_of_mem hc
  cases l with
  | false =>
      have h0 : hs = [] := by simpa [Inv] using h
      exact absurd h0 hne
  | true =>
      have hlen : hs.length = 1 := by simpa [Inv] using h
      have he : (List.erase hs c).length = 0 := by
        rw [List.length_erase_of_mem hc, hlen]
      simp [Inv, release, he]

theorem simple_inv_step {s t : State} (hst : Step s t) (h : Inv s) : Inv t := by
  cases hst with
  | acquire c s hl => exact inv_acquireGrant c hl h
  | release c s hc => exact simple_inv_release hc h

theorem simple_inv_of_reachable {w : Nat} {s : State} (h : Reachable w s) : Inv s := by
  induction h with
  | init => simp [Inv, mk]
  | step _ hst ih => exact simple_inv_step hst ih

end SimpleLock

namespace QueueLock

theorem queue_inv_acquire {s : State} (c : Nat) (h : Inv s) : Inv (acquire c s) := by
  obtain ⟨l, q, hs, g⟩ := s
  cases l with
  | false =>
      have h0 : hs.length = 0 := by simpa [Inv] using h
      simp [Inv, acquire, tryAcquire, h0]
  | true =>
      have h1 : hs.length = 1 := by simpa [Inv] using h
      simp [Inv, acquire, tryAcquire, h1]

theorem queue_inv_release {s : State} {c : Nat} (hc : c ∈ s.holders) (h : Inv s) :
    Inv (releaseFn c s) := by
  obtain ⟨l, q, hs, g⟩ := s
  have hne : hs ≠ [] := List.ne_nil_of_mem hc
  cases l with
  | false =>
      have h0 : hs = [] := by simpa [Inv] using h
      exact absurd h0 hne
  | true =>
      have h1 : hs.length = 1 := by simpa [Inv] using h
      have he : (List.erase hs c).length = 0 := by
        rw [List.length_erase_of_mem hc, h1]
      cases q with
      | nil => simp [Inv, releaseFn, he]
      | cons next rest => simp [Inv, releaseFn, tryAcquire, he]

theorem queue_inv_step {s t : State} (hst : Step s t) (h : Inv s) : Inv t := by
  cases hst with
  | acquire c s => exact queue_inv_acquire c h
  | release c s hc => exact queue_inv_release hc h

theorem queue_inv_of_reachable {s : State} (h : Reachable s) : Inv s := by
  induction h with
  | init => simp [Inv, init]
  | step _ hst ih => exact queue_inv_step hst ih

theorem queue_run_cons (s : State) (a : Act) (acts : List Act) :
    run s (a :: acts) = run (apply s a) acts := rfl

/-- Trace invariant behind the FIFO guarantee: starting from any state in
which a free lock has an empty queue, after any action sequence (i) a free
lock still has an empty queue, and (ii) the grant log followed by the wait
queue extends the initial one by the acquirers in arrival order.  Note that
no well-matchedness of releases is needed. -/
theorem queue_run_fifo (acts : List Act) (s : State)
    (h : s.locked = false → s.queue = []) :
    ((run s acts).locked = false → (run s acts).queue = []) ∧
    (run s acts).granted ++ (run s acts).queue
      = s.granted ++ (s.queue ++ arrivals acts) := by
  induction acts generalizing s with
  | nil => simpa [run, arrivals] using h
  | cons a rest ih =>
      obtain ⟨l, q, hs, g⟩ := s
      cases a with
      | acq c =>
          cases l with
          | false =>
              have hq : q = [] := h rfl
              subst hq
              rw [queue_run_cons]
              have happ : apply ⟨false, [], hs, g⟩ (Act.acq c)
                  = ⟨true, [], c :: hs, g ++ [c]⟩ := by
                simp [apply, acquire, tryAcquire]
              rw [happ]
              obtain ⟨h1, h2⟩ := ih ⟨true, [], c :: hs, g ++ [c]⟩
                (by intro hl; simp at hl)
              refine ⟨h1, ?_⟩
              rw [h2]
              simp [arrivals]
          | true =>
              rw [queue_run_cons]
              have happ : apply ⟨true, q, hs, g⟩ (Act.acq c)
                  = ⟨true, q ++ [c], hs, g⟩ := by
                simp [apply, acquire, tryAcquire]
              rw [happ]
              obtain ⟨h1, h2⟩ := ih ⟨true, q ++ [c], hs, g⟩
                (by intro hl; simp at hl)
              refine ⟨h1, ?_⟩
              rw [h2]
              simp [arrivals]
      | rel c =>
          cases q with
          | nil =>
              rw [queue_run_cons]
              have happ : apply ⟨l, [], hs, g⟩ (Act.rel c)
                  = ⟨false, [], hs.erase c, g⟩ := by
                simp [apply, releaseFn]
              rw [happ]
              obtain ⟨h1, h2⟩ := ih ⟨false, [], hs.erase c, g⟩
                (by intro _; rfl)
              refine ⟨h1, ?_⟩
              rw [h2]
              simp [arrivals]
          | cons n q' =>
              rw [queue_run_cons]
              have happ : apply ⟨l, n :: q', hs, g⟩ (Act.rel c)
                  = ⟨true, q', n :: hs.erase c, g ++ [n]⟩ := by
                simp [apply, releaseFn, tryAcquire]
              rw [happ]
              obtain ⟨h1, h2⟩ := ih ⟨true, q', n :: hs.erase c, g ++ [n]⟩
                (by intro hl; simp at hl)
              refine ⟨h1, ?_⟩
              rw [h2]
              simp [arrivals]

/-- The grant log of any run from a fresh `QueueLock` is a prefix of the
arrival order: callers are granted in exactly the order of their
`acquire()` calls. -/
theorem queue_granted_leads_arrivals (acts : List Act) :
    ∃ waiting, (run init acts).granted ++ waiting = arrivals acts := by
  refine ⟨(run init acts).queue, ?_⟩
  have h := (queue_run_fifo acts init (by intro _; rfl)).2
  simpa [init] using h

end QueueLock

/-- Ordering helper: if `g ++ w` enumerates distinct elements, `a` occurs
before `b` in it, and `b` already lies in the prefix `g`, then `a` occurs
before `b` inside `g` itself. -/
theorem sublist_left_of_mem_left {a b : Nat} {g w : List Nat}
    (hnd : (g ++ w).Nodup) (hab : List.Sublist [a, b] (g ++ w))
    (hb : b ∈ g) : List.Sublist [a, b] g := by
  rcases List.sublist_append_iff.mp hab with ⟨u, v, huv, hu, hv⟩
  have hdisj : g.Disjoint w := (List.nodup_append.mp hnd).2.2
  match u, huv with
  | [], huv =>
      have hbv : b ∈ v := by
        have : v = [a, b] := by simpa using huv.symm
        simp [this]
      exact absurd (hv.subset hbv) (hdisj hb)
  | [x], huv =>
      have hxv : x = a ∧ v = [b] := by
        constructor
        · exact (List.cons.injEq _ _ _ _ ▸ huv).1.symm
        · have := (List.cons.injEq _ _ _ _ ▸ huv).2
          simpa using this.symm
      have hbv : b ∈ v := by simp [hxv.2]
      exact absurd (hv.subset hbv) (hdisj hb)
  | x :: y :: u', huv =>
      have hx : a = x ∧ b = y ∧ u' = [] ∧ v = [] := by
        have h1 := List.cons.injEq a [b] x (y :: u' ++ v) ▸ huv
        obtain ⟨ha, htail⟩ := h1
        have h2 := List.cons.injEq b [] y (u' ++ v) ▸ htail
        obtain ⟨hbv, hnil⟩ := h2
        have h3 : u' = [] ∧ v = [] := by
          constructor
          · exact List.eq_nil_of_length_eq_zero (by
              have := congrArg List.length hnil
              simp at this
              omega)
          · exact List.eq_nil_of_length_eq_zero (by
              have := congrArg List.length hnil
              simp at this
              omega)
        exact ⟨ha, hbv, h3⟩
      obtain ⟨ha, hby, hu', hv'⟩ := hx
      subst ha hby hu' hv'
      simpa using hu

namespace SemaphoreLock

theorem sem_inv_acquire {k : Int} {s : State} (c : Nat) (h : Inv k s) :
    Inv k (acquire c s) := by
  obtain ⟨p, q, hs, g⟩ := s
  obtain ⟨h0, hsum, hq⟩ := h
  have h0' : 0 ≤ p := h0
  have hsum' : p + (hs.length : Int) = k := hsum
  have hq' : q ≠ [] → p = 0 := hq
  by_cases hp : 0 < p
  · have hqnil : q = [] := by
      by_contra hne
      have hp0 : p = 0 := hq' hne
      omega
    subst hqnil
    have hstep : acquire c ⟨p, [], hs, g⟩
        = ⟨p - 1, [], c :: hs, g ++ [c]⟩ := by
      simp [acquire, tryAcquire, hp]
    rw [hstep]
    refine ⟨?_, ?_, fun hne => absurd rfl hne⟩
    · show (0 : Int) ≤ p - 1
      omega
    · show p - 1 + ((c :: hs).length : Int) = k
      simp only [List.length_cons]
      omega
  · have hstep : acquire c ⟨p, q, hs, g⟩ = ⟨p, q ++ [c], hs, g⟩ := by
      simp [acquire, tryAcquire, hp]
    rw [hstep]
    refine ⟨h0', hsum', fun _ => ?_⟩
    show p = 0
    omega

theorem sem_inv_release {k : Int} {s : State} {c : Nat} (hc : c ∈ s.holders)
    (h : Inv k s) : Inv k (release c s) := by
  obtain ⟨p, q, hs, g⟩ := s
  obtain ⟨h0, hsum, hq⟩ := h
  have h0' : 0 ≤ p := h0
  have hsum' : p + (hs.length : Int) = k := hsum
  have hq' : q ≠ [] → p = 0 := hq
  have hc' : c ∈ hs := hc
  have hlen : 1 ≤ hs.length := List.length_pos.mpr (List.ne_nil_of_mem hc')
  have herase : (hs.erase c).length = hs.length - 1 :=
    List.length_erase_of_mem hc'
  cases hqe : q with
  | nil =>
      subst hqe
      have hstep : release c ⟨p, [], hs, g⟩
          = ⟨p + 1, [], hs.erase c, g⟩ := by
        simp [release, releaseIncrement, serveNext]
      rw [hstep]
      refine ⟨?_, ?_, fun hne => absurd rfl hne⟩
      · show (0 : Int) ≤ p + 1
        omega
      · show p + 1 + ((hs.erase c).length : Int) = k
        omega
  | cons n q' =>
      subst hqe
      have hp0 : p = 0 := hq' (by simp)
      subst hp0
      have hstep : release c ⟨0, n :: q', hs, g⟩
          = ⟨0, q', n :: hs.erase c, g ++ [n]⟩ := by
        simp [release, releaseIncrement, serveNext, tryAcquire]
      rw [hstep]
      refine ⟨le_refl 0, ?_, fun _ => rfl⟩
      show (0 : Int) + ((n :: hs.erase c).length : Int) = k
      simp only [List.length_cons]
      omega

theorem sem_inv_step {k : Int} {s t : State} (hst : Step s t) (h : Inv k s) :
    Inv k t := by
  cases hst with
  | acquire c s => exact sem_inv_acquire c h
  | release c s hc => exact sem_inv_release hc h

theorem sem_inv_of_reachable {k : Int} {s : State} (hk : 0 ≤ k)
    (h : Reachable k s) : Inv k s := by
  induction h with
  | init => exact ⟨hk, by simp [init], by simp [init]⟩
  | step _ hst ih => exact sem_inv_step hst ih

theorem sem_run_cons (s : State) (a : Act) (acts : List Act) :
    run s (a :: acts) = run (apply s a) acts := rfl

/-- Trace invariant behind the semaphore's FIFO guarantee: starting from
any state with non-negative permits in which a caller waits only when no
permit is available, after any action sequence (i, ii) those two facts
still hold, and (iii) the grant log followed by the wait queue extends the
initial one by the acquirers in arrival order.  No well-matchedness of
releases is needed. -/
theorem sem_run_fifo (acts : List Act) (s : State)
    (h0 : 0 ≤ s.permits) (h : s.queue ≠ [] → s.permits = 0) :
    (0 ≤ (run s acts).permits) ∧
    ((run s acts).queue ≠ [] → (run s acts).permits = 0) ∧
    (run s acts).granted ++ (run s acts).queue
      = s.granted ++ (s.queue ++ arrivals acts) := by
  induction acts generalizing s with
  | nil => exact ⟨h0, h, by simp [run, arrivals]⟩
  | cons a rest ih =>
      obtain ⟨p, q, hs, g⟩ := s
      cases a with
      | acq c =>
          have h0' : 0 ≤ p := h0
          have h' : q ≠ [] → p = 0 := h
          by_cases hp : 0 < p
          · have hqnil : q = [] := by
              by_contra hne
              have := h' hne
              omega
            subst hqnil
            rw [sem_run_cons]
            have happ : apply ⟨p, [], hs, g⟩ (Act.acq c)
                = ⟨p - 1, [], c :: hs, g ++ [c]⟩ := by
              simp [apply, acquire, tryAcquire, hp]
            rw [happ]
            obtain ⟨h1, h2, h3⟩ := ih ⟨p - 1, [], c :: hs, g ++ [c]⟩
              (by show (0 : Int) ≤ p - 1; omega)
              (fun hne => absurd rfl hne)
            refine ⟨h1, h2, ?_⟩
            rw [h3]
            simp [arrivals]
          · rw [sem_run_cons]
            have happ : apply ⟨p, q, hs, g⟩ (Act.acq c)
                = ⟨p, q ++ [c], hs, g⟩ := by
              simp [apply, acquire, tryAcquire, hp]
            rw [happ]
            have hp0 : p = 0 := by omega
            obtain ⟨h1, h2, h3⟩ := ih ⟨p, q ++ [c], hs, g⟩ h0'
              (fun _ => hp0)
            refine ⟨h1, h2, ?_⟩
            rw [h3]
            simp [arrivals]
      | rel c =>
          have h0' : 0 ≤ p := h0
          have h' : q ≠ [] → p = 0 := h
          cases hqe : q with
          | nil =>
              subst hqe
              rw [sem_run_cons]
              have happ : apply ⟨p, [], hs, g⟩ (Act.rel c)
                  = ⟨p + 1, [], hs.erase c, g⟩ := by
                simp [apply, release, releaseIncrement, serveNext]
              rw [happ]
              obtain ⟨h1, h2, h3⟩ := ih ⟨p + 1, [], hs.erase c, g⟩
                (by show (0 : Int) ≤ p + 1; omega)
                (fun hne => absurd rfl hne)
              refine ⟨h1, h2, ?_⟩
              rw [h3]
              simp [arrivals]
          | cons n q' =>
              subst hqe
              have hp0 : p = 0 := h' (by simp)
              subst hp0
              rw [sem_run_cons]
              have happ : apply ⟨0, n :: q', hs, g⟩ (Act.rel c)
                  = ⟨0, q', n :: hs.erase c, g ++ [n]⟩ := by
                simp [apply, release, releaseIncrement, serveNext, tryAcquire]
              rw [happ]
              obtain ⟨h1, h2, h3⟩ := ih ⟨0, q', n :: hs.erase c, g ++ [n]⟩
                le_rfl (fun _ => rfl)
              refine ⟨h1, h2, ?_⟩
              rw [h3]
              simp [arrivals]

/-- The grant log of any run from a fresh `SemaphoreLock` is a prefix of
the arrival order: permits are granted in exactly the order of the
`acquire()` calls. -/
theorem sem_granted_leads_arrivals (k : Int) (hk : 0 ≤ k)
    (acts : List Act) :
    ∃ waiting, (run (init k) acts).granted ++ waiting = arrivals acts := by
  refine ⟨(run (init k) acts).queue, ?_⟩
  have h := (sem_run_fifo acts (init k) (by simpa [init] using hk)
    (by intro hne; simp [init] at hne)).2.2
  simpa [init] using h

end SemaphoreLock

namespace ReadWriteLock

/-- With no active writer and no waiting writer, the wake loop grants
every queued reader, in queue order, and never requeues one. -/
theorem wakeReaders_drains (q : List Nat) (r : Int) (gr gw : List Nat) :
    wakeReaders q.length ⟨r, false, q, [], gr, gw⟩
      = ⟨r + q.length, false, [], [], gr ++ q, gw⟩ := by
  induction q generalizing r gr with
  | nil => simp [wakeReaders]
  | cons n rest ih =>
      have hstep : wakeReaders (n :: rest).length ⟨r, false, n :: rest, [], gr, gw⟩
          = wakeReaders rest.length ⟨r + 1, false, rest, [], gr ++ [n], gw⟩ := by
        simp [wakeReaders, tryAcquireRead]
      rw [hstep, ih]
      simp only [State.mk.injEq, List.length_cons, List.append_assoc,
        List.singleton_append, and_true, true_and]
      push_cast
      ring

theorem inv_acquireRead {s : State} (c : Nat) (h : Inv s) :
    Inv (acquireRead c s) := by
  obtain ⟨r, w, rq, wq, gr, gw⟩ := s
  obtain ⟨h0, hw⟩ := h
  have h0' : 0 ≤ r := h0
  have hw' : w = true → r = 0 := hw
  by_cases hcond : (w = false ∧ wq.length = 0)
  · obtain ⟨hwf, hql⟩ := hcond
    subst hwf
    have hstep : acquireRead c ⟨r, false, rq, wq, gr, gw⟩
        = ⟨r + 1, false, rq, wq, gr ++ [c], gw⟩ := by
      simp [acquireRead, tryAcquireRead, hql]
    rw [hstep]
    exact ⟨by show (0 : Int) ≤ r + 1; omega, fun hcon => by cases hcon⟩
  · have hstep : acquireRead c ⟨r, w, rq, wq, gr, gw⟩
        = ⟨r, w, rq ++ [c], wq, gr, gw⟩ := by
      simp only [acquireRead, tryAcquireRead, if_neg hcond]
    rw [hstep]
    exact ⟨h0', hw'⟩

theorem inv_acquireWrite {s : State} (c : Nat) (h : Inv s) :
    Inv (acquireWrite c s) := by
  obtain ⟨r, w, rq, wq, gr, gw⟩ := s
  obtain ⟨h0, hw⟩ := h
  have h0' : 0 ≤ r := h0
  have hw' : w = true → r = 0 := hw
  by_cases hcond : (w = false ∧ r = 0)
  · obtain ⟨hwf, hr0⟩ := hcond
    subst hwf
    subst hr0
    have hstep : acquireWrite c ⟨0, false, rq, wq, gr, gw⟩
        = ⟨0, true, rq, wq, gr, gw ++ [c]⟩ := by
      simp [acquireWrite, tryAcquireWrite]
    rw [hstep]
    exact ⟨le_refl 0, fun _ => rfl⟩
  · have hstep : acquireWrite c ⟨r, w, rq, wq, gr, gw⟩
        = ⟨r, w, rq, wq ++ [c], gr, gw⟩ := by
      simp only [acquireWrite, tryAcquireWrite, if_neg hcond]
    rw [hstep]
    exact ⟨h0', hw'⟩

theorem inv_releaseRead {s : State} (hr : 0 < s.readers) (h : Inv s) :
    Inv (releaseRead s) := by
  obtain ⟨r, w, rq, wq, gr, gw⟩ := s
  obtain ⟨h0, hw⟩ := h
  have hr' : 0 < r := hr
  have hwf : w = false := by
    cases w with
    | false => rfl
    | true =>
        have : r = 0 := hw rfl
        omega
  subst hwf
  by_cases hr1 : r - 1 = 0
  · cases hwq : wq with
    | nil =>
        have hstep : releaseRead ⟨r, false, rq, [], gr, gw⟩
            = ⟨r - 1, false, rq, [], gr, gw⟩ := by
          simp [releaseRead]
        rw [hstep]
        exact ⟨by show (0 : Int) ≤ r - 1; omega, fun hcon => by cases hcon⟩
    | cons n rest =>
        have hstep : releaseRead ⟨r, false, rq, n :: rest, gr, gw⟩
            = ⟨r - 1, true, rq, rest, gr, gw ++ [n]⟩ := by
          simp [releaseRead, tryAcquireWrite, hr1]
        rw [hstep]
        exact ⟨by show (0 : Int) ≤ r - 1; omega, fun _ => hr1⟩
  · have hstep : releaseRead ⟨r, false, rq, wq, gr, gw⟩
        = ⟨r - 1, false, rq, wq, gr, gw⟩ := by
      simp [releaseRead, hr1]
    rw [hstep]
    exact ⟨by show (0 : Int) ≤ r - 1; omega, fun hcon => by cases hcon⟩

theorem releaseWrite_serve {s : State} (hr : s.readers = 0) (n : Nat)
    (rest : List Nat) (hq : s.writeQueue = n :: rest) :
    releaseWrite s = { s with writer := true, writeQueue := rest,
                              grantedWrites := s.grantedWrites ++ [n] } := by
  obtain ⟨r, w, rq, wq, gr, gw⟩ := s
  have hr' : r = 0 := hr
  have hq' : wq = n :: rest := hq
  subst hr'
  subst hq'
  simp [releaseWrite, tryAcquireWrite]

theorem releaseWrite_batch {s : State} (hq : s.writeQueue = []) :
    releaseWrite s = { s with writer := false,
                              readers := s.readers + s.readQueue.length,
                              readQueue := [],
                              grantedReads := s.grantedReads ++ s.readQueue } := by
  obtain ⟨r, w, rq, wq, gr, gw⟩ := s
  have hq' : wq = [] := hq
  subst hq'
  have hstep : releaseWrite ⟨r, w, rq, [], gr, gw⟩
      = wakeReaders rq.length ⟨r, false, rq, [], gr, gw⟩ := by
    simp [releaseWrite]
  rw [hstep, wakeReaders_drains]

theorem inv_releaseWrite {s : State} (hw : s.writer = true) (h : Inv s) :
    Inv (releaseWrite s) := by
  have hr0 : s.readers = 0 := h.2 hw
  cases hq : s.writeQueue with
  | nil =>
      rw [releaseWrite_batch hq]
      constructor
      · show (0 : Int) ≤ s.readers + s.readQueue.length
        have := h.1
        positivity
      · intro hcon
        cases hcon
  | cons n rest =>
      rw [releaseWrite_serve hr0 n rest hq]
      exact ⟨h.1, fun _ => hr0⟩

theorem rw_inv_step {s t : State} (hst : Step s t) (h : Inv s) : Inv t := by
  cases hst with
  | acquireRead c s => exact inv_acquireRead c h
  | acquireWrite c s => exact inv_acquireWrite c h
  | releaseRead s hr => exact inv_releaseRead hr h
  | releaseWrite s hw => exact inv_releaseWrite hw h

theorem rw_inv_of_reachable {s : State} (h : Reachable s) : Inv s := by
  induction h with
  | init => exact ⟨le_refl 0, fun _ => rfl⟩
  | step _ hst ih => exact rw_inv_step hst ih

end ReadWriteLock

/-- C1: For FIFOLock (QueueLock) and PollingLock (SimpleLock), in every
reachable state of any interleaving of acquire and release steps, at most
one caller holds the lock: at most one outstanding, un-invoked release
capability (FIFOLock) or at most one caller past its acquire with
held=true and no matching release (PollingLock) exists at a time. -/
theorem claim_C1_mutual_exclusion
    (s₁ : QueueLock.State) (h₁ : QueueLock.Reachable s₁)
    (w : Nat) (s₂ : SimpleLock.State) (h₂ : SimpleLock.Reachable w s₂) :
    s₁.holders.length ≤ 1 ∧ s₂.holders.length ≤ 1 := by
  constructor
  · have hinv := QueueLock.queue_inv_of_reachable h₁
    rw [QueueLock.Inv] at hinv
    rw [hinv]
    split <;> omega
  · have hinv := SimpleLock.simple_inv_of_reachable h₂
    rw [SimpleLock.Inv] at hinv
    rw [hinv]
    split <;> omega

theorem claim_C1_mutual_exclusion_witness :
    (QueueLock.acquire 1 QueueLock.init).holders.length ≤ 1 ∧
    (SimpleLock.acquireGrant 7 (SimpleLock.mk 2000)).holders.length ≤ 1 :=
  claim_C1_mutual_exclusion _
    (QueueLock.Reachable.step QueueLock.Reachable.init
      (QueueLock.Step.acquire 1 _))
    2000 _
    (SimpleLock.Reachable.step SimpleLock.Reachable.init
      (SimpleLock.Step.acquire 7 _ rfl))

/-- C3: For a CountingSemaphore constructed with maxPermits = k, in every
state reachable by well-matched acquire/release sequences,
0 ≤ permits ≤ k holds, and at most k release capabilities are
simultaneously un-invoked; each successful acquire decrements permits by
exactly one and each release-capability invocation increments it by
exactly one (before the queue hand-off of `release` runs). -/
theorem claim_C3_semaphore_bounds
    (k : Int) (hk : 1 ≤ k) (s : SemaphoreLock.State)
    (h : SemaphoreLock.Reachable k s) :
    (0 ≤ s.permits ∧ s.permits ≤ k) ∧
    (s.holders.length : Int) ≤ k ∧
    (∀ c, 0 < s.permits →
      (SemaphoreLock.acquire c s).permits = s.permits - 1) ∧
    (∀ c, (SemaphoreLock.releaseIncrement c s).permits = s.permits + 1) := by
  obtain ⟨h0, hsum, hq⟩ := SemaphoreLock.sem_inv_of_reachable (by omega) h
  refine ⟨⟨h0, by omega⟩, by omega, ?_, fun c => rfl⟩
  intro c hp
  simp [SemaphoreLock.acquire, SemaphoreLock.tryAcquire, hp]

theorem claim_C3_semaphore_bounds_witness :
    (0 ≤ (SemaphoreLock.init 3).permits ∧ (SemaphoreLock.init 3).permits ≤ 3) ∧
    ((SemaphoreLock.init 3).holders.length : Int) ≤ 3 ∧
    (∀ c, 0 < (SemaphoreLock.init 3).permits →
      (SemaphoreLock.acquire c (SemaphoreLock.init 3)).permits
        = (SemaphoreLock.init 3).permits - 1) ∧
    (∀ c, (SemaphoreLock.releaseIncrement c (SemaphoreLock.init 3)).permits
        = (SemaphoreLock.init 3).permits + 1) :=
  claim_C3_semaphore_bounds 3 (by decide) _ SemaphoreLock.Reachable.init

/-- C4: For ReaderWriterLock, in every reachable state,
activeReaders > 0 implies writerActive is false, and writerActive implies
activeReaders == 0; this mutual exclusivity is preserved by every
operation since every operation preserves reachability. -/
theorem claim_C4_reader_writer_exclusivity
    (s : ReadWriteLock.State) (h : ReadWriteLock.Reachable s) :
    (0 < s.readers → s.writer = false) ∧
    (s.writer = true → s.readers = 0) := by
  obtain ⟨h0, hw⟩ := ReadWriteLock.rw_inv_of_reachable h
  refine ⟨?_, hw⟩
  intro hr
  cases hwv : s.writer with
  | false => rfl
  | true =>
      have := hw hwv
      omega

theorem claim_C4_reader_writer_exclusivity_witness :
    (0 < (ReadWriteLock.acquireRead 1 ReadWriteLock.init).readers →
      (ReadWriteLock.acquireRead 1 ReadWriteLock.init).writer = false) ∧
    ((ReadWriteLock.acquireRead 1 ReadWriteLock.init).writer = true →
      (ReadWriteLock.acquireRead 1 ReadWriteLock.init).readers = 0) :=
  claim_C4_reader_writer_exclusivity _
    (ReadWriteLock.Reachable.step ReadWriteLock.Reachable.init
      (ReadWriteLock.Step.acquireRead 1 _))

/-- C8: PollingLock.release(callerId) unconditionally sets the held flag
to false regardless of the prior state and of callerId (callerId affects
only logging); calling release while the lock is not held is a silent
no-op on the lock state, not an error. -/
theorem claim_C8_release_unconditional
    (s : SimpleLock.State) (id1 id2 : Nat) :
    (SimpleLock.release id1 s).locked = false ∧
    SimpleLock.release id1 s = SimpleLock.release id2 s ∧
    (s.locked = false → SimpleLock.release id1 s = s) := by
  obtain ⟨l, w, hs⟩ := s
  refine ⟨rfl, rfl, ?_⟩
  intro hl
  have hl' : l = false := hl
  subst hl'
  rfl

theorem claim_C8_release_unconditional_witness :
    ((SimpleLock.mk 2000).locked = false) ∧
    SimpleLock.release 3 (SimpleLock.mk 2000) = SimpleLock.mk 2000 :=
  ⟨rfl, (claim_C8_release_unconditional (SimpleLock.mk 2000) 3 7).2.2 rfl⟩

/-- C9: For SemaphoreLock, in every state reachable by well-matched
acquire/release sequences (observed between operations), permits > 0
implies the wait queue is empty; equivalently, whenever any caller is
queued waiting, permits == 0. -/
theorem claim_C9_no_permits_while_waiting
    (k : Int) (hk : 1 ≤ k) (s : SemaphoreLock.State)
    (h : SemaphoreLock.Reachable k s) :
    (0 < s.permits → s.queue = []) ∧
    (s.queue ≠ [] → s.permits = 0) := by
  obtain ⟨h0, hsum, hq⟩ := SemaphoreLock.sem_inv_of_reachable (by omega) h
  refine ⟨?_, hq⟩
  intro hp
  by_contra hne
  have := hq hne
  omega

theorem claim_C9_no_permits_while_waiting_witness :
    (0 < (SemaphoreLock.acquire 2 (SemaphoreLock.acquire 1
        (SemaphoreLock.init 1))).permits →
      (SemaphoreLock.acquire 2 (SemaphoreLock.acquire 1
        (SemaphoreLock.init 1))).queue = []) ∧
    ((SemaphoreLock.acquire 2 (SemaphoreLock.acquire 1
        (SemaphoreLock.init 1))).queue ≠ [] →
      (SemaphoreLock.acquire 2 (SemaphoreLock.acquire 1
        (SemaphoreLock.init 1))).permits = 0) :=
  claim_C9_no_permits_while_waiting 1 (by decide) _
    (SemaphoreLock.Reachable.step
      (SemaphoreLock.Reachable.step SemaphoreLock.Reachable.init
        (SemaphoreLock.Step.acquire 1 _))
      (SemaphoreLock.Step.acquire 2 _))

/-- C2: For every pair of callers A and B of FIFOLock (QueueLock) or of
CountingSemaphore (SemaphoreLock): grants occur in exactly the order of
the acquire() calls (the grant log is a prefix of the arrival order), and
in particular if A invokes acquire() strictly before B then whenever B has
been granted, A was granted strictly before B. -/
theorem claim_C2_fifo_grant_order
    (k : Int) (hk : 0 ≤ k)
    (qacts : List QueueLock.Act) (sacts : List SemaphoreLock.Act) :
    (∃ waiting, (QueueLock.run QueueLock.init qacts).granted ++ waiting
      = QueueLock.arrivals qacts) ∧
    (∃ waiting, (SemaphoreLock.run (SemaphoreLock.init k) sacts).granted
      ++ waiting = SemaphoreLock.arrivals sacts) ∧
    (∀ a b : Nat, (QueueLock.arrivals qacts).Nodup →
      List.Sublist [a, b] (QueueLock.arrivals qacts) →
      b ∈ (QueueLock.run QueueLock.init qacts).granted →
      List.Sublist [a, b] (QueueLock.run QueueLock.init qacts).granted) ∧
    (∀ a b : Nat, (SemaphoreLock.arrivals sacts).Nodup →
      List.Sublist [a, b] (SemaphoreLock.arrivals sacts) →
      b ∈ (SemaphoreLock.run (SemaphoreLock.init k) sacts).granted →
      List.Sublist [a, b]
        (SemaphoreLock.run (SemaphoreLock.init k) sacts).granted) := by
  have hq := QueueLock.queue_granted_leads_arrivals qacts
  have hs := SemaphoreLock.sem_granted_leads_arrivals k hk sacts
  refine ⟨hq, hs, ?_, ?_⟩
  · intro a b hnd hab hb
    obtain ⟨t, ht⟩ := hq
    rw [← ht] at hnd hab
    exact sublist_left_of_mem_left hnd hab hb
  · intro a b hnd hab hb
    obtain ⟨t, ht⟩ := hs
    rw [← ht] at hnd hab
    exact sublist_left_of_mem_left hnd hab hb

theorem claim_C2_fifo_grant_order_witness :
    List.Sublist [1, 2] (QueueLock.run QueueLock.init
      [QueueLock.Act.acq 1, QueueLock.Act.acq 2,
       QueueLock.Act.rel 1]).granted ∧
    List.Sublist [1, 2] (SemaphoreLock.run (SemaphoreLock.init 1)
      [SemaphoreLock.Act.acq 1, SemaphoreLock.Act.acq 2,
       SemaphoreLock.Act.rel 1]).granted :=
  ⟨(claim_C2_fifo_grant_order 1 (by decide)
      [QueueLock.Act.acq 1, QueueLock.Act.acq 2, QueueLock.Act.rel 1]
      [SemaphoreLock.Act.acq 1, SemaphoreLock.Act.acq 2,
       SemaphoreLock.Act.rel 1]).2.2.1 1 2 (by decide) (by decide)
      (by decide),
   (claim_C2_fifo_grant_order 1 (by decide)
      [QueueLock.Act.acq 1, QueueLock.Act.acq 2, QueueLock.Act.rel 1]
      [SemaphoreLock.Act.acq 1, SemaphoreLock.Act.acq 2,
       SemaphoreLock.Act.rel 1]).2.2.2 1 2 (by decide) (by decide)
      (by decide)⟩

namespace ReadWriteLock

theorem grantedReads_tryAcquireWrite (c : Nat) (s : State) :
    (tryAcquireWrite c s).grantedReads = s.grantedReads := by
  unfold tryAcquireWrite
  split <;> rfl

theorem grantedReads_releaseRead (s : State) :
    (releaseRead s).grantedReads = s.grantedReads := by
  obtain ⟨r, w, rq, wq, gr, gw⟩ := s
  by_cases hc : (r - 1 = 0 ∧ 0 < wq.length)
  · cases wq with
    | nil => exact absurd hc.2 (by simp)
    | cons n rest =>
        simp [releaseRead, hc.1, grantedReads_tryAcquireWrite]
  · simp [releaseRead, hc]

end ReadWriteLock

/-- C5: ReaderWriterLock.acquireRead() grants immediately (increments
activeReaders and returns a release capability) if and only if no writer
is active and the write queue is empty; in every other case the caller's
continuation is appended to the read queue.  Moreover any step that
grants readers ends in a state with no active writer and an empty write
queue, so a queued read request waits until no writer is queued or
active. -/
theorem claim_C5_acquireRead_grant_iff
    (s t : ReadWriteLock.State) (c : Nat) :
    ((s.writer = false ∧ s.writeQueue = []) →
      ReadWriteLock.acquireRead c s
        = { s with readers := s.readers + 1,
                   grantedReads := s.grantedReads ++ [c] }) ∧
    ((s.writer = true ∨ s.writeQueue ≠ []) →
      ReadWriteLock.acquireRead c s
        = { s with readQueue := s.readQueue ++ [c] }) ∧
    (ReadWriteLock.Step s t → t.grantedReads ≠ s.grantedReads →
      t.writer = false ∧ t.writeQueue = []) := by
  refine ⟨?_, ?_, ?_⟩
  · rintro ⟨hw, hq⟩
    simp [ReadWriteLock.acquireRead, ReadWriteLock.tryAcquireRead, hw, hq]
  · intro hcase
    have hcond : ¬(s.writer = false ∧ s.writeQueue.length = 0) := by
      rcases hcase with hw | hq
      · rintro ⟨hwf, -⟩
        rw [hw] at hwf
        cases hwf
      · rintro ⟨-, hlen⟩
        exact hq (List.length_eq_zero.mp hlen)
    simp only [ReadWriteLock.acquireRead, ReadWriteLock.tryAcquireRead,
      if_neg hcond]
  · intro hst hne
    cases hst with
    | acquireRead c9 =>
        by_cases hc : (s.writer = false ∧ s.writeQueue.length = 0)
        · refine ⟨?_, ?_⟩
          · have hwq : (ReadWriteLock.acquireRead c9 s).writer = s.writer := by
              simp [ReadWriteLock.acquireRead, ReadWriteLock.tryAcquireRead, hc]
            rw [hwq, hc.1]
          · have hq : (ReadWriteLock.acquireRead c9 s).writeQueue
                = s.writeQueue := by
              simp [ReadWriteLock.acquireRead, ReadWriteLock.tryAcquireRead, hc]
            rw [hq]
            exact List.length_eq_zero.mp hc.2
        · exfalso
          apply hne
          simp only [ReadWriteLock.acquireRead, ReadWriteLock.tryAcquireRead,
            if_neg hc]
    | acquireWrite c9 =>
        exact absurd (ReadWriteLock.grantedReads_tryAcquireWrite c9 s) hne
    | releaseRead hr =>
        exact absurd (ReadWriteLock.grantedReads_releaseRead s) hne
    | releaseWrite hw =>
        cases hq : s.writeQueue with
        | nil =>
            rw [ReadWriteLock.releaseWrite_batch hq]
            exact ⟨rfl, hq⟩
        | cons n rest =>
            exfalso
            apply hne
            show (ReadWriteLock.releaseWrite s).grantedReads = s.grantedReads
            obtain ⟨r, w, rq, wq, gr, gw⟩ := s
            have hq' : wq = n :: rest := hq
            subst hq'
            simp [ReadWriteLock.releaseWrite,
              ReadWriteLock.grantedReads_tryAcquireWrite]

theorem claim_C5_acquireRead_grant_iff_witness :
    (ReadWriteLock.init.writer = false ∧ ReadWriteLock.init.writeQueue = []) ∧
    ReadWriteLock.acquireRead 1 ReadWriteLock.init
      = { ReadWriteLock.init with
          readers := ReadWriteLock.init.readers + 1,
          grantedReads := ReadWriteLock.init.grantedReads ++ [1] } :=
  ⟨⟨rfl, rfl⟩,
   (claim_C5_acquireRead_grant_iff ReadWriteLock.init ReadWriteLock.init 1).1
     ⟨rfl, rfl⟩⟩

/-- C6: Invoking a ReaderWriterLock write-release capability clears
writerActive; then, if the write queue is non-empty, exactly the head
writer is popped and resumed (so the final state has writerActive re-set
by that writer, the tail of the write queue, and the head writer granted);
otherwise every continuation currently in the read queue is popped and
resumed in that same release step (batch wake). -/
theorem claim_C6_releaseWrite_behavior (s : ReadWriteLock.State)
    (h : ReadWriteLock.Reachable s) (hw : s.writer = true) :
    (∀ n rest, s.writeQueue = n :: rest →
      ReadWriteLock.releaseWrite s
        = { s with writer := true, writeQueue := rest,
                   grantedWrites := s.grantedWrites ++ [n] }) ∧
    (s.writeQueue = [] →
      ReadWriteLock.releaseWrite s
        = { s with writer := false,
                   readers := s.readers + s.readQueue.length,
                   readQueue := [],
                   grantedReads := s.grantedReads ++ s.readQueue }) := by
  have hr0 : s.readers = 0 := (ReadWriteLock.rw_inv_of_reachable h).2 hw
  exact ⟨fun n rest hq => ReadWriteLock.releaseWrite_serve hr0 n rest hq,
         fun hq => ReadWriteLock.releaseWrite_batch hq⟩

theorem claim_C6_releaseWrite_behavior_witness :
    ReadWriteLock.releaseWrite
        (ReadWriteLock.acquireWrite 6
          (ReadWriteLock.acquireWrite 5 ReadWriteLock.init))
      = { ReadWriteLock.acquireWrite 6
            (ReadWriteLock.acquireWrite 5 ReadWriteLock.init) with
          writer := true, writeQueue := [],
          grantedWrites :=
            (ReadWriteLock.acquireWrite 6
              (ReadWriteLock.acquireWrite 5 ReadWriteLock.init)).grantedWrites
              ++ [6] } :=
  (claim_C6_releaseWrite_behavior _
    (ReadWriteLock.Reachable.step
      (ReadWriteLock.Reachable.step ReadWriteLock.Reachable.init
        (ReadWriteLock.Step.acquireWrite 5 _))
      (ReadWriteLock.Step.acquireWrite 6 _))
    (by decide)).1 6 [] (by decide)

/-- C7: Constructing a CountingSemaphore (SemaphoreLock) fails
synchronously (with the configuration error the spec calls
InvalidConfiguration) exactly when the maxPermits argument is not a
positive integer: 0, -1 and 5/2 all fail construction, while 3
succeeds. -/
theorem claim_C7_constructor_validation (q : ℚ) :
    ((∃ s, SemaphoreLock.mkChecked q = Except.ok s) ↔
      (q.den = 1 ∧ 1 ≤ q)) ∧
    SemaphoreLock.mkChecked 0
      = Except.error "maxConcurrency must be a positive integer" ∧
    SemaphoreLock.mkChecked (-1)
      = Except.error "maxConcurrency must be a positive integer" ∧
    SemaphoreLock.mkChecked ((5 : ℚ)/2)
      = Except.error "maxConcurrency must be a positive integer" ∧
    SemaphoreLock.mkChecked 3 = Except.ok (SemaphoreLock.init 3) := by
  refine ⟨?_,
    by norm_num [SemaphoreLock.mkChecked, SemaphoreLock.isIntegerArg],
    by norm_num [SemaphoreLock.mkChecked, SemaphoreLock.isIntegerArg],
    by norm_num [SemaphoreLock.mkChecked, SemaphoreLock.isIntegerArg],
    by norm_num [SemaphoreLock.mkChecked, SemaphoreLock.isIntegerArg]⟩
  unfold SemaphoreLock.mkChecked SemaphoreLock.isIntegerArg
  by_cases hden : q.den = 1
  · by_cases hlt : q < 1
    · simp [hden, hlt]
    · simp [hden, hlt]
      exact not_lt.mp hlt
  · simp [hden]

theorem claim_C7_constructor_validation_witness :
    SemaphoreLock.mkChecked 3 = Except.ok (SemaphoreLock.init 3) :=
  (claim_C7_constructor_validation 3).2.2.2.2

/-- C10: In ReadWriteLock, when a write-release capability is invoked
while the write queue is empty, every reader continuation woken by the
batch wake is granted in that same step: afterwards the read queue is
empty, writerActive is false, and activeReaders has increased by exactly
the number of readers that were queued (no woken reader is re-queued). -/
theorem claim_C10_batch_wake_complete (s : ReadWriteLock.State)
    (h : ReadWriteLock.Reachable s) (hw : s.writer = true)
    (hq : s.writeQueue = []) :
    (ReadWriteLock.releaseWrite s).readQueue = [] ∧
    (ReadWriteLock.releaseWrite s).writer = false ∧
    (ReadWriteLock.releaseWrite s).readers
      = s.readers + s.readQueue.length ∧
    (ReadWriteLock.releaseWrite s).grantedReads
      = s.grantedReads ++ s.readQueue := by
  rw [ReadWriteLock.releaseWrite_batch hq]
  exact ⟨rfl, rfl, rfl, rfl⟩

theorem claim_C10_batch_wake_complete_witness :
    (ReadWriteLock.releaseWrite
      (ReadWriteLock.acquireRead 3 (ReadWriteLock.acquireRead 2
        (ReadWriteLock.acquireWrite 1 ReadWriteLock.init)))).readQueue = [] ∧
    (ReadWriteLock.releaseWrite
      (ReadWriteLock.acquireRead 3 (ReadWriteLock.acquireRead 2
        (ReadWriteLock.acquireWrite 1 ReadWriteLock.init)))).writer = false ∧
    (ReadWriteLock.releaseWrite
      (ReadWriteLock.acquireRead 3 (ReadWriteLock.acquireRead 2
        (ReadWriteLock.acquireWrite 1 ReadWriteLock.init)))).readers
      = (ReadWriteLock.acquireRead 3 (ReadWriteLock.acquireRead 2
          (ReadWriteLock.acquireWrite 1 ReadWriteLock.init))).readers
        + (ReadWriteLock.acquireRead 3 (ReadWriteLock.acquireRead 2
            (ReadWriteLock.acquireWrite 1
              ReadWriteLock.init))).readQueue.length ∧
    (ReadWriteLock.releaseWrite
      (ReadWriteLock.acquireRead 3 (ReadWriteLock.acquireRead 2
        (ReadWriteLock.acquireWrite 1 ReadWriteLock.init)))).grantedReads
      = (ReadWriteLock.acquireRead 3 (ReadWriteLock.acquireRead 2
          (ReadWriteLock.acquireWrite 1 ReadWriteLock.init))).grantedReads
        ++ (ReadWriteLock.acquireRead 3 (ReadWriteLock.acquireRead 2
            (ReadWriteLock.acquireWrite 1 ReadWriteLock.init))).readQueue :=
  claim_C10_batch_wake_complete _
    (ReadWriteLock.Reachable.step
      (ReadWriteLock.Reachable.step
        (ReadWriteLock.Reachable.step ReadWriteLock.Reachable.init
          (ReadWriteLock.Step.acquireWrite 1 _))
        (ReadWriteLock.Step.acquireRead 2 _))
      (ReadWriteLock.Step.acquireRead 3 _))
    (by decide) (by decide)
